import Mathlib

/-!
Shallow embedding of the core of the `tssrp6a` SRP-6a library:
the big-integer/byte utilities (`bigIntToArrayBuffer`, `arrayBufferToBigInt`,
`modPow`, `createVerifier`, `createVerifierAndSalt` from `src/utils.ts`) and
the post-handshake authenticated encryption layer (`src/encryption.ts`:
`deriveKeys`, `generateIV`, `xorCrypt`, `computeMAC`, `encrypt`, `decrypt`).

Bytes are modelled as `Nat` lists; every write into a JS `Uint8Array` whose
value can exceed 255 is truncated with `% 256`, mirroring `Uint8Array`
element coercion.  Hash functions (the `H` of `SRPParameters`) are modelled
as parameters of type `List Nat → List Nat`; SHA-512 is characterised by the
hypothesis that every digest is 64 bytes long.  Randomness (IVs, salts) is
modelled by passing the drawn values explicitly.
-/

/-- A list of `Nat` is a byte string when every element is below 256. -/
def isBytes (l : List Nat) : Prop := ∀ b ∈ l, b < 256

instance (l : List Nat) : Decidable (isBytes l) := by
  unfold isBytes; infer_instance

/-- UTF-8 bytes of an ASCII string (for ASCII, code points = UTF-8 bytes);
models `new TextEncoder().encode(str)` for the literals used by the code. -/
def asciiBytes (s : String) : List Nat := s.data.map Char.toNat

/-- Hex digits of `n`, least significant first; empty for 0.
Mirrors the digit stream of `n.toString(16)`. -/
def hexRev (n : Nat) : List Nat :=
  if h : n = 0 then [] else n % 16 :: hexRev (n / 16)
termination_by n
decreasing_by exact Nat.div_lt_self (Nat.pos_of_ne_zero h) (by norm_num)

/-- The digit list of `n.toString(16)`: "0" for zero, otherwise the
most-significant-first hex digits without leading zeros. -/
def hexStringOf (n : Nat) : List Nat :=
  if n = 0 then [0] else (hexRev n).reverse

/-- Group a hex-digit list into bytes, two digits per byte, most significant
first; a trailing lone digit is dropped (in the source the corresponding
`parseInt` of a truncated slice writes out of bounds and is ignored). -/
def pairBytes : List Nat → List Nat
  | a :: b :: rest => (16 * a + b) :: pairBytes rest
  | _ => []

/-- `bigIntToArrayBuffer` from `src/utils.ts`: hex-encode `n`, then pack the
digits into bytes; an odd-length hex string contributes its first digit as
the first byte on its own. -/
def bigIntToArrayBuffer (n : Nat) : List Nat :=
  let hex := hexStringOf n
  if hex.length % 2 = 1 then hex.headD 0 :: pairBytes hex.tail
  else pairBytes hex

/-- `arrayBufferToBigInt` from `src/utils.ts`: each byte becomes two hex
digits (`("0" + i.toString(16)).slice(-2)`, i.e. the byte mod 256) and the
join is parsed as a big-endian number.  On an empty buffer the join is
empty and `BigInt("0x")` throws a SyntaxError, so the function fails. -/
def arrayBufferToBigInt (l : List Nat) : Except String Nat :=
  if l.isEmpty then Except.error ("SyntaxError: Cannot convert 0x to a BigInt")
  else Except.ok (l.foldl (fun acc b => acc * 256 + b % 256) 0)

/-- Minimum-length big-endian byte encoding (the spec wording: big-endian,
minimum-length encoding): no leading zero byte, empty for 0. -/
def minBE (n : Nat) : List Nat :=
  if _h : n = 0 then [] else minBE (n / 256) ++ [n % 256]
termination_by n
decreasing_by exact Nat.div_lt_self (Nat.pos_of_ne_zero _h) (by norm_num)

/-- The square-and-multiply `while` loop of `modPow` (`src/utils.ts`),
as a well-founded recursion on the strictly decreasing exponent. -/
def modPowLoop (x pow mod result : Nat) : Nat :=
  if _h : pow = 0 then result
  else if pow % 2 = 1 then modPowLoop x (pow - 1) mod ((x * result) % mod)
  else modPowLoop ((x * x) % mod) (pow / 2) mod result
termination_by pow
decreasing_by
  · exact Nat.sub_lt (Nat.pos_of_ne_zero _h) (by norm_num)
  · exact Nat.div_lt_self (Nat.pos_of_ne_zero _h) (by norm_num)

/-- The same loop with an explicit iteration budget (`none` = budget
exhausted before the loop condition `pow > 0` became false). -/
def modPowGo : Nat → Nat → Nat → Nat → Nat → Option Nat
  | 0, _, _, _, _ => none
  | fuel + 1, x, pow, mod, result =>
    if pow = 0 then some result
    else if pow % 2 = 1 then modPowGo fuel x (pow - 1) mod ((x * result) % mod)
    else modPowGo fuel ((x * x) % mod) (pow / 2) mod result

/-- `modPow` from `src/utils.ts`: validates the arguments, then runs the
square-and-multiply loop with `result = 1`. -/
def modPow (x pow mod : Int) : Except String Int :=
  if x < 0 then Except.error ("Invalid base: " ++ toString x)
  else if pow < 0 then Except.error ("Invalid power: " ++ toString pow)
  else if mod < 1 then Except.error ("Invalid modulo: " ++ toString mod)
  else Except.ok (modPowLoop x.toNat pow.toNat mod.toNat 1)

/-- JS whitespace test used by `String.prototype.trim`: the ECMA-262
WhiteSpace and LineTerminator code points — TAB, LF, VT, FF, CR, SP, NBSP,
ZWNBSP (U+FEFF), LS (U+2028), PS (U+2029), and the Unicode Zs category
(U+1680, U+2000..U+200A, U+202F, U+205F, U+3000). -/
def isJsWs (c : Char) : Bool :=
  let n := c.toNat
  n == 0x09 || n == 0x0a || n == 0x0b || n == 0x0c || n == 0x0d || n == 0x20 ||
    n == 0xa0 || n == 0x1680 || (0x2000 ≤ n && n ≤ 0x200a) || n == 0x2028 ||
    n == 0x2029 || n == 0x202f || n == 0x205f || n == 0x3000 || n == 0xfeff

/-- Model of JS `String.prototype.trim`: strip leading and trailing
whitespace. -/
def jsTrim (s : String) : String :=
  String.mk (((s.data.dropWhile isJsWs).reverse.dropWhile isJsWs).reverse)

/-- JS falsiness of a possibly-null string (`!I`): null or empty. -/
def jsFalsyStr : Option String → Bool
  | none => true
  | some s => s == ""

/-- JS falsiness of a possibly-null bigint (`!s`): null or zero. -/
def jsFalsyBigInt : Option Nat → Bool
  | none => true
  | some v => v == 0

/-- The routines object passed to `createVerifier`; its methods are unknown
to `utils.ts` and are therefore fields here.  `generateRandomSalt` is the
salt value drawn by the CSPRNG of the routines for the one call
`createVerifierAndSalt` makes. -/
structure SRPRoutines where
  computeX : String → Nat → String → Nat
  computeVerifier : Nat → Nat
  generateRandomSalt : Nat

/-- `createVerifier` from `src/utils.ts`: JS-falsiness checks on `I`
(including its trim), `s`, `P`, then `computeVerifier(computeX(I, s, P))`. -/
def createVerifier (r : SRPRoutines) (I : Option String) (s : Option Nat)
    (P : Option String) : Except String Nat :=
  if jsFalsyStr I || jsFalsyStr (I.map jsTrim) then
    Except.error ("Identity (I) must not be null or empty.")
  else if jsFalsyBigInt s then
    Except.error ("Salt (s) must not be null.")
  else if jsFalsyStr P then
    Except.error ("Password (P) must not be null")
  else
    Except.ok (r.computeVerifier (r.computeX (I.getD ("")) (s.getD 0) (P.getD (""))))

/-- `createVerifierAndSalt` from `src/utils.ts`: draw a random salt and
delegate to `createVerifier`, returning the pair `{s, v}`. -/
def createVerifierAndSalt (r : SRPRoutines) (I P : Option String) :
    Except String (Nat × Nat) :=
  let s := r.generateRandomSalt
  (createVerifier r I (some s) P).map fun v => (s, v)

/-- `SRPParameters` reduced to what the encryption layer reads from it: the
selected hash function `H`. -/
structure SRPParameters where
  H : List Nat → List Nat

/-- `new SRPParameters()`: a default-constructed parameters object, whose
hash is the ambient default (SHA-512 in the library). -/
def defaultParameters (defaultH : List Nat → List Nat) : SRPParameters :=
  { H := defaultH }

/-- `hash` from `src/utils.ts`: concatenate all chunks and apply the
hash of the parameters. -/
def hashChunks (params : SRPParameters) (chunks : List (List Nat)) : List Nat :=
  params.H chunks.flatten

/-- `deriveKeys` from `src/encryption.ts`: builds `new SRPParameters()` and
returns `(H(S_bytes || "encryption"), H(S_bytes || "authentication"))`. -/
def deriveKeys (defaultH : List Nat → List Nat) (S : Nat) : List Nat × List Nat :=
  let params := defaultParameters defaultH
  let sBytes := bigIntToArrayBuffer S
  (hashChunks params [sBytes, asciiBytes ("encryption")],
   hashChunks params [sBytes, asciiBytes ("authentication")])

/-- Which random primitive a generator draws from. -/
inductive RandomSource
  | csprng
  | mathRandom
deriving DecidableEq

/-- The random primitive `generateIV` (`src/encryption.ts`) draws from:
`Math.floor(Math.random() * 256)`, i.e. `Math.random`, not
`crossEnvCrypto.randomBytes`. -/
def generateIVSource : RandomSource := RandomSource.mathRandom

/-- `generateIV` from `src/encryption.ts`: 16 bytes, the i-th drawn from the
random stream (each draw a byte, `Math.floor(Math.random() * 256)`). -/
def generateIV (rand : Nat → Nat) : List Nat :=
  (List.range 16).map fun i => rand i % 256

/-- Keystream byte `i`: `key[i % key.length] ^ iv[i % iv.length]`, truncated
by the `Uint8Array` write. -/
def keyStreamAt (key iv : List Nat) (i : Nat) : Nat :=
  (key.getD (i % key.length) 0 ^^^ iv.getD (i % iv.length) 0) % 256

/-- `xorCrypt` from `src/encryption.ts`: XOR the data with the keystream,
each result byte truncated by the `Uint8Array` write. -/
def xorCrypt (data key iv : List Nat) : List Nat :=
  (List.range data.length).map fun i => (data.getD i 0 ^^^ keyStreamAt key iv i) % 256

/-- `computeMAC` from `src/encryption.ts`: `H(macKey || iv || ciphertext)`
with a default-constructed `SRPParameters`. -/
def computeMAC (defaultH : List Nat → List Nat) (macKey iv ciphertext : List Nat) :
    List Nat :=
  hashChunks (defaultParameters defaultH) [macKey, iv, ciphertext]

/-- The `{iv, ciphertext}` pair returned by `encrypt`. -/
structure Encrypted where
  iv : List Nat
  ciphertext : List Nat

/-- `encrypt` from `src/encryption.ts`: derive keys, draw an IV, XOR-encrypt,
append the first 16 bytes of the MAC as tag.  `data` is the plaintext byte
buffer (for string input, its UTF-8 encoding). -/
def encrypt (defaultH : List Nat → List Nat) (rand : Nat → Nat) (S : Nat)
    (data : List Nat) : Encrypted :=
  let keys := deriveKeys defaultH S
  let iv := generateIV rand
  let encrypted := xorCrypt data keys.1 iv
  let mac := computeMAC defaultH keys.2 iv encrypted
  let tag := mac.take 16
  { iv := iv, ciphertext := encrypted ++ tag }

/-- The two errors of the decryption path. -/
inductive DecryptError
  | shortCiphertext
  | authTagMismatch
deriving DecidableEq

/-- `decrypt` from `src/encryption.ts`: length check, split off the trailing
16-byte tag, recompute the tag and compare all 16 positions, then
XOR-decrypt.  The comparison loop reads index `i` of both tags; a JS
out-of-bounds read is `undefined`, modelled by `Option` equality. -/
def decrypt (defaultH : List Nat → List Nat) (S : Nat) (iv ct : List Nat) :
    Except DecryptError (List Nat) :=
  let keys := deriveKeys defaultH S
  if ct.length < 16 then Except.error DecryptError.shortCiphertext
  else
    let actualCiphertext := ct.take (ct.length - 16)
    let receivedTag := ct.drop (ct.length - 16)
    let computedTag := (computeMAC defaultH keys.2 iv actualCiphertext).take 16
    let tagMatch := (List.range 16).all fun i => receivedTag[i]? == computedTag[i]?
    if !tagMatch then Except.error DecryptError.authTagMismatch
    else Except.ok (xorCrypt actualCiphertext keys.1 iv)

/-- A session as the encryption layer sees it: the configured parameters and
the shared secret `S`.  The session methods pass only `S` to
`encrypt`/`decrypt`; the configured parameters never reach the layer. -/
structure EncSession where
  params : SRPParameters
  S : Nat

/-- The keys the encryption layer derives for a session: `deriveKeys` is
called with the session secret only, so the ambient default parameters (not
`sess.params`) supply the hash. -/
def sessionDeriveKeys (defaultH : List Nat → List Nat) (sess : EncSession) :
    List Nat × List Nat :=
  deriveKeys defaultH sess.S

/-- A concrete routines object for witnesses and counterexamples. -/
def sampleRoutines : SRPRoutines :=
  { computeX := fun _ s _ => s
    computeVerifier := fun x => x + 1
    generateRandomSalt := 5 }

/-- A concrete hash constantly `[1]` (stands for a session-configured hash). -/
def hashConst1 : List Nat → List Nat := fun _ => [1]

/-- A concrete hash constantly `[2]` (stands for the ambient default hash). -/
def hashConst2 : List Nat → List Nat := fun _ => [2]

/-- A concrete 64-byte-digest hash, standing in for SHA-512 in witnesses. -/
def sha512Stub : List Nat → List Nat := fun _ => List.replicate 64 0

/-- A concrete random stream for witnesses. -/
def sampleRand : Nat → Nat := fun i => 7 * i + 3

/-! ## Helper lemmas: hex digits and the byte encoding -/

theorem hexRev_zero : hexRev 0 = [] := by
  simp [hexRev]

theorem hexRev_pos {n : Nat} (h : 0 < n) : hexRev n = n % 16 :: hexRev (n / 16) := by
  rw [hexRev]
  simp [Nat.pos_iff_ne_zero.mp h]

theorem hexStringOf_pos {n : Nat} (h : 0 < n) : hexStringOf n = (hexRev n).reverse := by
  simp [hexStringOf, Nat.pos_iff_ne_zero.mp h]

theorem hexStringOf_ne_nil (n : Nat) : hexStringOf n ≠ [] := by
  by_cases h : n = 0
  · simp [hexStringOf, h]
  · have hp : 0 < n := Nat.pos_of_ne_zero h
    rw [hexStringOf_pos hp, hexRev_pos hp]
    simp

theorem pairBytes_append_pair : ∀ (l : List Nat), l.length % 2 = 0 → ∀ a b : Nat,
    pairBytes (l ++ [a, b]) = pairBytes l ++ [16 * a + b]
  | [], _, a, b => rfl
  | [x], h, _, _ => by simp at h
  | x :: y :: t, h, a, b => by
    have ht : t.length % 2 = 0 := by
      simp [List.length_cons] at h
      omega
    show (16 * x + y) :: pairBytes (t ++ [a, b]) =
      ((16 * x + y) :: pairBytes t) ++ [16 * a + b]
    rw [pairBytes_append_pair t ht a b]
    rfl

theorem mod_256_decompose (n : Nat) : n % 256 = 16 * (n / 16 % 16) + n % 16 := by
  have h : n % (16 * 16) = n % 16 + 16 * (n / 16 % 16) := Nat.mod_mul
  omega

theorem hexStringOf_ge256 {n : Nat} (h : 256 ≤ n) :
    hexStringOf n = hexStringOf (n / 256) ++ [n / 16 % 16, n % 16] := by
  have h0 : 0 < n := by omega
  have h16 : 0 < n / 16 := Nat.div_pos (by omega) (by norm_num)
  have h256 : 0 < n / 256 := Nat.div_pos h (by norm_num)
  have hdiv : n / 16 / 16 = n / 256 := by
    rw [Nat.div_div_eq_div_mul]
  rw [hexStringOf_pos h0, hexRev_pos h0, hexRev_pos h16, hdiv,
    hexStringOf_pos h256]
  simp

theorem bigIntToArrayBuffer_step {n : Nat} (h : 256 ≤ n) :
    bigIntToArrayBuffer n = bigIntToArrayBuffer (n / 256) ++ [n % 256] := by
  obtain ⟨c, t, hct⟩ := List.exists_cons_of_ne_nil (hexStringOf_ne_nil (n / 256))
  have hbyte : 16 * (n / 16 % 16) + n % 16 = n % 256 := (mod_256_decompose n).symm
  rw [bigIntToArrayBuffer, bigIntToArrayBuffer, hexStringOf_ge256 h, hct]
  by_cases hpar : (c :: t).length % 2 = 1
  · have ht_even : t.length % 2 = 0 := by
      simp [List.length_cons] at hpar
      omega
    have hpar2 : ((c :: t) ++ [n / 16 % 16, n % 16]).length % 2 = 1 := by
      simp [List.length_append, List.length_cons]
      omega
    rw [if_pos hpar2, if_pos hpar]
    have happ : (c :: t) ++ [n / 16 % 16, n % 16] = c :: (t ++ [n / 16 % 16, n % 16]) := rfl
    rw [happ]
    simp only [List.headD_cons, List.tail_cons]
    rw [pairBytes_append_pair t ht_even, hbyte]
    simp
  · have heven : (c :: t).length % 2 = 0 := by omega
    have hpar2 : ¬((c :: t) ++ [n / 16 % 16, n % 16]).length % 2 = 1 := by
      simp [List.length_append, List.length_cons] at heven ⊢
      omega
    rw [if_neg hpar2, if_neg hpar]
    rw [pairBytes_append_pair (c :: t) heven, hbyte]

theorem minBE_step {n : Nat} (h : 0 < n) : minBE n = minBE (n / 256) ++ [n % 256] := by
  rw [minBE]
  simp [Nat.pos_iff_ne_zero.mp h]

theorem bigIntToArrayBuffer_small {n : Nat} (h0 : 0 < n) (h : n < 256) :
    bigIntToArrayBuffer n = [n] := by
  by_cases h16 : n < 16
  · have hx : hexStringOf n = [n] := by
      rw [hexStringOf_pos h0, hexRev_pos h0]
      simp [Nat.mod_eq_of_lt h16, Nat.div_eq_of_lt h16, hexRev_zero]
    simp [bigIntToArrayBuffer, hx, pairBytes]
  · have hq0 : 0 < n / 16 := Nat.div_pos (by omega) (by norm_num)
    have hqlt : n / 16 < 16 := by omega
    have hx : hexStringOf n = [n / 16, n % 16] := by
      rw [hexStringOf_pos h0, hexRev_pos h0, hexRev_pos hq0]
      simp [Nat.mod_eq_of_lt hqlt, Nat.div_eq_of_lt hqlt, hexRev_zero]
    simp [bigIntToArrayBuffer, hx, pairBytes, Nat.div_add_mod]

theorem minBE_small {n : Nat} (h0 : 0 < n) (h : n < 256) : minBE n = [n] := by
  rw [minBE_step h0]
  rw [Nat.div_eq_of_lt h, Nat.mod_eq_of_lt h]
  simp [minBE]

theorem bigIntToArrayBuffer_eq_minBE : ∀ n : Nat, 0 < n →
    bigIntToArrayBuffer n = minBE n := by
  intro n
  induction n using Nat.strong_induction_on with
  | _ n ih =>
    intro h0
    by_cases h : n < 256
    · rw [bigIntToArrayBuffer_small h0 h, minBE_small h0 h]
    · have h256 : 256 ≤ n := by omega
      have hq : 0 < n / 256 := Nat.div_pos h256 (by norm_num)
      have hlt : n / 256 < n := Nat.div_lt_self h0 (by norm_num)
      rw [bigIntToArrayBuffer_step h256, minBE_step h0, ih (n / 256) hlt hq]

theorem bigIntToArrayBuffer_zero : bigIntToArrayBuffer 0 = [0] := by
  simp [bigIntToArrayBuffer, hexStringOf, pairBytes]

theorem foldl_bytes_append_singleton (l : List Nat) (b : Nat) :
    (l ++ [b]).foldl (fun acc c => acc * 256 + c % 256) 0 =
      l.foldl (fun acc c => acc * 256 + c % 256) 0 * 256 + b % 256 := by
  simp [List.foldl_append]

theorem foldl_bytes_minBE : ∀ n : Nat,
    (minBE n).foldl (fun acc c => acc * 256 + c % 256) 0 = n := by
  intro n
  induction n using Nat.strong_induction_on with
  | _ n ih =>
    by_cases h0 : n = 0
    · simp [h0, minBE]
    · have hp : 0 < n := Nat.pos_of_ne_zero h0
      have hlt : n / 256 < n := Nat.div_lt_self hp (by norm_num)
      rw [minBE_step hp, foldl_bytes_append_singleton, ih (n / 256) hlt]
      omega

theorem minBE_ne_nil {n : Nat} (h : 0 < n) : minBE n ≠ [] := by
  rw [minBE_step h]
  simp

theorem arrayBufferToBigInt_bigIntToArrayBuffer (n : Nat) :
    arrayBufferToBigInt (bigIntToArrayBuffer n) = Except.ok n := by
  by_cases h0 : n = 0
  · subst h0
    rw [bigIntToArrayBuffer_zero]
    rfl
  · have hp : 0 < n := Nat.pos_of_ne_zero h0
    rw [bigIntToArrayBuffer_eq_minBE n hp]
    unfold arrayBufferToBigInt
    rw [if_neg (by simpa [List.isEmpty_iff] using minBE_ne_nil hp), foldl_bytes_minBE]

theorem foldl_bytes_lt : ∀ (l : List Nat) (acc : Nat),
    l.foldl (fun a b => a * 256 + b % 256) acc < (acc + 1) * 256 ^ l.length := by
  intro l
  induction l with
  | nil =>
    intro acc
    simp only [List.foldl_nil, List.length_nil, pow_zero, mul_one]
    omega
  | cons b t ih =>
    intro acc
    have h1 := ih (acc * 256 + b % 256)
    have h2 : b % 256 < 256 := Nat.mod_lt _ (by norm_num)
    have h3 : (acc * 256 + b % 256 + 1) * 256 ^ t.length ≤
        ((acc + 1) * 256) * 256 ^ t.length :=
      Nat.mul_le_mul_right _ (by omega)
    calc (b :: t).foldl (fun a c => a * 256 + c % 256) acc
        = t.foldl (fun a c => a * 256 + c % 256) (acc * 256 + b % 256) := rfl
      _ < (acc * 256 + b % 256 + 1) * 256 ^ t.length := h1
      _ ≤ ((acc + 1) * 256) * 256 ^ t.length := h3
      _ = (acc + 1) * 256 ^ (b :: t).length := by
          rw [List.length_cons, pow_succ]
          ring

theorem minBE_pow_le : ∀ n : Nat, 0 < n → 256 ^ ((minBE n).length - 1) ≤ n := by
  intro n
  induction n using Nat.strong_induction_on with
  | _ n ih =>
    intro hp
    by_cases h : n < 256
    · rw [minBE_small hp h]
      simpa using hp
    · have h256 : 256 ≤ n := by omega
      have hq : 0 < n / 256 := Nat.div_pos h256 (by norm_num)
      have hlt : n / 256 < n := Nat.div_lt_self hp (by norm_num)
      have hk : 1 ≤ (minBE (n / 256)).length :=
        List.length_pos.mpr (minBE_ne_nil hq)
      have hih := ih (n / 256) hlt hq
      rw [minBE_step hp, List.length_append, List.length_singleton,
        Nat.add_sub_cancel]
      calc 256 ^ (minBE (n / 256)).length
          = 256 ^ ((minBE (n / 256)).length - 1) * 256 := by
            rw [← pow_succ, Nat.sub_add_cancel hk]
        _ ≤ (n / 256) * 256 := Nat.mul_le_mul_right _ hih
        _ ≤ n := by
            have := Nat.div_mul_le_self n 256
            omega

theorem bigIntToArrayBuffer_minimal (n : Nat) (l : List Nat)
    (h : arrayBufferToBigInt l = Except.ok n) :
    (bigIntToArrayBuffer n).length ≤ l.length := by
  unfold arrayBufferToBigInt at h
  by_cases he : l.isEmpty
  · rw [if_pos he] at h
    simp at h
  · rw [if_neg he] at h
    have hval : l.foldl (fun a b => a * 256 + b % 256) 0 = n := by
      simpa using h
    have hlpos : 0 < l.length := by
      cases l with
      | nil => simp [List.isEmpty] at he
      | cons a t => simp
    by_cases h0 : n = 0
    · subst h0
      rw [bigIntToArrayBuffer_zero]
      simpa using hlpos
    · have hp : 0 < n := Nat.pos_of_ne_zero h0
      have hbound : n < 256 ^ l.length := by
        rw [← hval]
        simpa using foldl_bytes_lt l 0
      have hlow := minBE_pow_le n hp
      have hpowlt : 256 ^ ((minBE n).length - 1) < 256 ^ l.length :=
        lt_of_le_of_lt hlow hbound
      have hexp : (minBE n).length - 1 < l.length :=
        (Nat.pow_lt_pow_iff_right (by norm_num)).mp hpowlt
      have hk : 1 ≤ (minBE n).length := List.length_pos.mpr (minBE_ne_nil hp)
      rw [bigIntToArrayBuffer_eq_minBE n hp]
      omega

/-! ## Helper lemmas: the modPow loop -/

theorem modPowGo_mono : ∀ (f1 f2 x pow mod result v : Nat), f1 ≤ f2 →
    modPowGo f1 x pow mod result = some v → modPowGo f2 x pow mod result = some v := by
  intro f1
  induction f1 with
  | zero => intro f2 x pow mod result v _ hsome; simp [modPowGo] at hsome
  | succ f ih =>
    intro f2 x pow mod result v hle hsome
    obtain ⟨f2p, rfl⟩ : ∃ f2p, f2 = f2p + 1 := ⟨f2 - 1, by omega⟩
    have hle2 : f ≤ f2p := by omega
    rw [modPowGo] at hsome ⊢
    by_cases h0 : pow = 0
    · simpa [h0] using hsome
    · by_cases hodd : pow % 2 = 1
      · simp only [h0, if_false, hodd, if_true] at hsome ⊢
        exact ih f2p x (pow - 1) mod ((x * result) % mod) v hle2 hsome
      · simp only [h0, if_false, hodd] at hsome ⊢
        exact ih f2p ((x * x) % mod) (pow / 2) mod result v hle2 hsome

theorem modPowGo_succ_eq : ∀ pow x mod result : Nat,
    modPowGo (pow + 1) x pow mod result = some (modPowLoop x pow mod result) := by
  intro pow
  induction pow using Nat.strong_induction_on with
  | _ pow ih =>
    intro x mod result
    by_cases h0 : pow = 0
    · subst h0
      rw [modPowGo, modPowLoop]
      simp
    · have hp : 0 < pow := Nat.pos_of_ne_zero h0
      by_cases hodd : pow % 2 = 1
      · have hstep : modPowGo (pow + 1) x pow mod result =
            modPowGo pow x (pow - 1) mod ((x * result) % mod) := by
          rw [modPowGo]
          simp [h0, hodd]
        have hsub : pow - 1 + 1 = pow := by omega
        have hrec := ih (pow - 1) (by omega) x mod ((x * result) % mod)
        rw [hsub] at hrec
        rw [hstep, hrec]
        conv_rhs => rw [modPowLoop]
        simp [h0, hodd]
      · have hstep : modPowGo (pow + 1) x pow mod result =
            modPowGo pow ((x * x) % mod) (pow / 2) mod result := by
          rw [modPowGo]
          simp [h0, hodd]
        have hhalf : pow / 2 < pow := Nat.div_lt_self hp (by norm_num)
        have hrec := ih (pow / 2) hhalf ((x * x) % mod) mod result
        have hlift := modPowGo_mono (pow / 2 + 1) pow ((x * x) % mod) (pow / 2) mod result
          (modPowLoop ((x * x) % mod) (pow / 2) mod result) (by omega) hrec
        rw [hstep, hlift]
        conv_rhs => rw [modPowLoop]
        simp [h0, hodd]

/-! ## Helper lemmas: the stream cipher -/

theorem map_range_getD (n : Nat) (f : Nat → Nat) (i : Nat) (h : i < n) :
    ((List.range n).map f).getD i 0 = f i := by
  rw [List.getD_eq_getElem?_getD]
  simp [List.getElem?_map, List.getElem?_range, h]

theorem xorCrypt_length (data key iv : List Nat) :
    (xorCrypt data key iv).length = data.length := by
  simp [xorCrypt]

theorem keyStreamAt_lt (key iv : List Nat) (i : Nat) : keyStreamAt key iv i < 256 :=
  Nat.mod_lt _ (by norm_num)

theorem xorCrypt_getD (data key iv : List Nat) (i : Nat) (h : i < data.length) :
    (xorCrypt data key iv).getD i 0 = (data.getD i 0 ^^^ keyStreamAt key iv i) % 256 := by
  unfold xorCrypt
  exact map_range_getD data.length _ i h

theorem getD_lt_of_isBytes {data : List Nat} (hd : isBytes data) {i : Nat}
    (h : i < data.length) : data.getD i 0 < 256 := by
  rw [List.getD_eq_getElem _ 0 h]
  exact hd _ (List.getElem_mem h)

theorem xorCrypt_getD_of_bytes (data key iv : List Nat) (hd : isBytes data) (i : Nat)
    (h : i < data.length) :
    (xorCrypt data key iv).getD i 0 = data.getD i 0 ^^^ keyStreamAt key iv i := by
  rw [xorCrypt_getD data key iv i h]
  have hb : data.getD i 0 < 256 := getD_lt_of_isBytes hd h
  have hx : data.getD i 0 ^^^ keyStreamAt key iv i < 256 := by
    have := Nat.xor_lt_two_pow (n := 8) hb (keyStreamAt_lt key iv i)
    simpa using this
  exact Nat.mod_eq_of_lt hx

theorem xorCrypt_xorCrypt (data key iv : List Nat) (hd : isBytes data) :
    xorCrypt (xorCrypt data key iv) key iv = data := by
  apply List.ext_getElem
  · simp [xorCrypt_length]
  intro i h1 h2
  have hi : i < data.length := h2
  have hi1 : i < (xorCrypt data key iv).length := by
    rw [xorCrypt_length]; exact hi
  rw [← List.getD_eq_getElem _ 0 h1, ← List.getD_eq_getElem _ 0 h2]
  rw [xorCrypt_getD _ key iv i hi1, xorCrypt_getD_of_bytes data key iv hd i hi]
  rw [Nat.xor_assoc, Nat.xor_self, Nat.xor_zero]
  exact Nat.mod_eq_of_lt (getD_lt_of_isBytes hd hi)

theorem xorCrypt_isBytes (data key iv : List Nat) : isBytes (xorCrypt data key iv) := by
  unfold xorCrypt isBytes
  intro b hb
  simp only [List.mem_map, List.mem_range] at hb
  obtain ⟨j, _, rfl⟩ := hb
  exact Nat.mod_lt _ (by norm_num)

theorem generateIV_length (rand : Nat → Nat) : (generateIV rand).length = 16 := by
  simp [generateIV]

theorem generateIV_isBytes (rand : Nat → Nat) : isBytes (generateIV rand) := by
  unfold generateIV isBytes
  intro b hb
  simp only [List.mem_map, List.mem_range] at hb
  obtain ⟨j, _, rfl⟩ := hb
  exact Nat.mod_lt _ (by norm_num)

theorem computeMAC_length (H : List Nat → List Nat) (hH : ∀ x, (H x).length = 64)
    (k iv c : List Nat) : (computeMAC H k iv c).length = 64 := by
  simp [computeMAC, hashChunks, defaultParameters, hH]

theorem decrypt_append_tag (H : List Nat → List Nat) (hH : ∀ x, (H x).length = 64)
    (S : Nat) (iv enc : List Nat) :
    decrypt H S iv (enc ++ (computeMAC H (deriveKeys H S).2 iv enc).take 16) =
      Except.ok (xorCrypt enc (deriveKeys H S).1 iv) := by
  have htaglen : ((computeMAC H (deriveKeys H S).2 iv enc).take 16).length = 16 := by
    rw [List.length_take, computeMAC_length H hH]
    decide
  set tag := (computeMAC H (deriveKeys H S).2 iv enc).take 16 with htag
  have hctlen : (enc ++ tag).length = enc.length + 16 := by
    rw [List.length_append, htaglen]
  have hnotshort : ¬((enc ++ tag).length < 16) := by omega
  have hsub : (enc ++ tag).length - 16 = enc.length := by omega
  have htake : (enc ++ tag).take ((enc ++ tag).length - 16) = enc := by
    rw [hsub]; exact List.take_left enc tag
  have hdrop : (enc ++ tag).drop ((enc ++ tag).length - 16) = tag := by
    rw [hsub]; exact List.drop_left enc tag
  simp only [decrypt]
  rw [if_neg hnotshort, htake, hdrop]
  simp

theorem encrypt_iv_eq (H : List Nat → List Nat) (rand : Nat → Nat) (S : Nat) (m : List Nat) :
    (encrypt H rand S m).iv = generateIV rand := rfl

theorem encrypt_ciphertext_eq (H : List Nat → List Nat) (rand : Nat → Nat) (S : Nat)
    (m : List Nat) :
    (encrypt H rand S m).ciphertext =
      xorCrypt m (deriveKeys H S).1 (generateIV rand) ++
        (computeMAC H (deriveKeys H S).2 (generateIV rand)
          (xorCrypt m (deriveKeys H S).1 (generateIV rand))).take 16 := rfl

/-- C1: for every positive session secret `S`, every plaintext byte string
`m` (for string input, its UTF-8 encoding) and every IV drawn by `encrypt`,
decrypting the output of `encrypt` with the same `S` and the returned IV yields
exactly `m`. -/
theorem decrypt_encrypt_roundtrip (H : List Nat → List Nat) (rand : Nat → Nat)
    (S : Nat) (m : List Nat) (_hS : 0 < S) (hH : ∀ x, (H x).length = 64)
    (hm : isBytes m) :
    decrypt H S (encrypt H rand S m).iv (encrypt H rand S m).ciphertext =
      Except.ok m := by
  rw [encrypt_iv_eq, encrypt_ciphertext_eq,
    decrypt_append_tag H hH S (generateIV rand) (xorCrypt m (deriveKeys H S).1 (generateIV rand)),
    xorCrypt_xorCrypt m (deriveKeys H S).1 (generateIV rand) hm]

/-- Witness for C1 at concrete inputs. -/
theorem decrypt_encrypt_roundtrip_witness :
    decrypt sha512Stub 5 (encrypt sha512Stub sampleRand 5 [0, 255, 7]).iv
        (encrypt sha512Stub sampleRand 5 [0, 255, 7]).ciphertext =
      Except.ok [0, 255, 7] :=
  decrypt_encrypt_roundtrip sha512Stub sampleRand 5 [0, 255, 7] (by decide)
    (fun _ => by simp [sha512Stub]) (by decide)

theorem all_range16_eq (a b : List Nat) (ha : a.length = 16) (hb : b.length = 16) :
    ((List.range 16).all fun i => a[i]? == b[i]?) = true ↔ a = b := by
  constructor
  · intro h
    apply List.ext_getElem?
    intro i
    by_cases hi : i < 16
    · have hmem : i ∈ List.range 16 := by simpa using hi
      have := List.all_eq_true.mp h i hmem
      exact eq_of_beq this
    · have hna : a[i]? = none := by
        rw [List.getElem?_eq_none_iff]
        omega
      have hnb : b[i]? = none := by
        rw [List.getElem?_eq_none_iff]
        omega
      rw [hna, hnb]
  · intro h
    subst h
    simp

/-- C3: decrypt raises short-ciphertext exactly below 16 bytes; at 16 or
more it raises auth-tag-mismatch exactly when the recomputed tag differs
from the trailing 16 bytes, and otherwise returns the XOR-decrypted body.
The error type has no further constructor. -/
theorem decrypt_error_characterization (H : List Nat → List Nat)
    (hH : ∀ x, (H x).length = 64) (S : Nat) (iv ct : List Nat) :
    (decrypt H S iv ct = Except.error DecryptError.shortCiphertext ↔ ct.length < 16)
    ∧ (16 ≤ ct.length →
        ((decrypt H S iv ct = Except.error DecryptError.authTagMismatch ↔
          (computeMAC H (deriveKeys H S).2 iv (ct.take (ct.length - 16))).take 16 ≠
            ct.drop (ct.length - 16))
         ∧ ((computeMAC H (deriveKeys H S).2 iv (ct.take (ct.length - 16))).take 16 =
              ct.drop (ct.length - 16) →
            decrypt H S iv ct =
              Except.ok (xorCrypt (ct.take (ct.length - 16)) (deriveKeys H S).1 iv)))) := by
  by_cases hshort : ct.length < 16
  · refine ⟨⟨fun _ => hshort, fun _ => by simp [decrypt, hshort]⟩, fun h => by omega⟩
  · have hrecvlen : (ct.drop (ct.length - 16)).length = 16 := by
      rw [List.length_drop]
      omega
    have hcomplen :
        ((computeMAC H (deriveKeys H S).2 iv (ct.take (ct.length - 16))).take 16).length = 16 := by
      rw [List.length_take, computeMAC_length H hH]
      decide
    have hmatch := all_range16_eq (ct.drop (ct.length - 16))
      ((computeMAC H (deriveKeys H S).2 iv (ct.take (ct.length - 16))).take 16)
      hrecvlen hcomplen
    by_cases heq :
        (computeMAC H (deriveKeys H S).2 iv (ct.take (ct.length - 16))).take 16 =
          ct.drop (ct.length - 16)
    · have hall : ((List.range 16).all fun i =>
          (ct.drop (ct.length - 16))[i]? ==
            ((computeMAC H (deriveKeys H S).2 iv (ct.take (ct.length - 16))).take 16)[i]?) =
          true := hmatch.mpr heq.symm
      have hok : decrypt H S iv ct =
          Except.ok (xorCrypt (ct.take (ct.length - 16)) (deriveKeys H S).1 iv) := by
        simp only [decrypt]
        rw [if_neg hshort, hall]
        simp
      refine ⟨⟨fun hcontr => ?_, fun hcontr => by omega⟩,
        fun _ => ⟨⟨fun hcontr => ?_, fun hne => absurd heq hne⟩, fun _ => hok⟩⟩
      · rw [hok] at hcontr
        simp at hcontr
      · rw [hok] at hcontr
        simp at hcontr
    · have hall : ((List.range 16).all fun i =>
          (ct.drop (ct.length - 16))[i]? ==
            ((computeMAC H (deriveKeys H S).2 iv (ct.take (ct.length - 16))).take 16)[i]?) =
          false := by
        rcases Bool.eq_false_or_eq_true ((List.range 16).all fun i =>
          (ct.drop (ct.length - 16))[i]? ==
            ((computeMAC H (deriveKeys H S).2 iv (ct.take (ct.length - 16))).take 16)[i]?) with ht | hf
        · exact absurd (hmatch.mp ht).symm heq
        · exact hf
      have herr : decrypt H S iv ct = Except.error DecryptError.authTagMismatch := by
        simp only [decrypt]
        rw [if_neg hshort, hall]
        simp
      refine ⟨⟨fun hcontr => ?_, fun hcontr => absurd hcontr hshort⟩,
        fun _ => ⟨⟨fun _ => heq, fun _ => herr⟩, fun hcontr => absurd hcontr heq⟩⟩
      rw [herr] at hcontr
      simp at hcontr

theorem keyStreamAt_eq_of_bytes (key iv : List Nat) (hk : isBytes key)
    (hiv : isBytes iv) (hklen : 0 < key.length) (hivlen : 0 < iv.length) (i : Nat) :
    keyStreamAt key iv i = key.getD (i % key.length) 0 ^^^ iv.getD (i % iv.length) 0 := by
  unfold keyStreamAt
  have hkb : key.getD (i % key.length) 0 < 256 :=
    getD_lt_of_isBytes hk (Nat.mod_lt _ hklen)
  have hivb : iv.getD (i % iv.length) 0 < 256 :=
    getD_lt_of_isBytes hiv (Nat.mod_lt _ hivlen)
  have hx : key.getD (i % key.length) 0 ^^^ iv.getD (i % iv.length) 0 < 256 := by
    have := Nat.xor_lt_two_pow (n := 8) hkb hivb
    simpa using this
  exact Nat.mod_eq_of_lt hx

/-- C4: for a plaintext of length L the ciphertext field is exactly L + 16
bytes; byte i of the first L is plaintext XOR encKey XOR IV at the claimed
indices, and the trailing 16 bytes are the first 16 bytes of
H(macKey || IV || body). -/
theorem encrypt_shape (H : List Nat → List Nat) (rand : Nat → Nat) (S : Nat)
    (m : List Nat) (hH : ∀ x, (H x).length = 64 ∧ isBytes (H x)) (hm : isBytes m) :
    (encrypt H rand S m).ciphertext.length = m.length + 16
    ∧ (∀ i, i < m.length →
        (encrypt H rand S m).ciphertext.getD i 0 =
          m.getD i 0 ^^^ (deriveKeys H S).1.getD (i % (deriveKeys H S).1.length) 0 ^^^
            (encrypt H rand S m).iv.getD (i % 16) 0)
    ∧ (encrypt H rand S m).ciphertext.drop m.length =
        (computeMAC H (deriveKeys H S).2 (encrypt H rand S m).iv
          ((encrypt H rand S m).ciphertext.take m.length)).take 16 := by
  have hk1len : (deriveKeys H S).1.length = 64 := (hH _).1
  have hk1bytes : isBytes (deriveKeys H S).1 := (hH _).2
  have hivlen : (generateIV rand).length = 16 := generateIV_length rand
  have hivbytes : isBytes (generateIV rand) := generateIV_isBytes rand
  have henclen : (xorCrypt m (deriveKeys H S).1 (generateIV rand)).length = m.length :=
    xorCrypt_length m _ _
  have hmaclen : (computeMAC H (deriveKeys H S).2 (generateIV rand)
      (xorCrypt m (deriveKeys H S).1 (generateIV rand))).length = 64 :=
    computeMAC_length H (fun x => (hH x).1) _ _ _
  have htaglen : ((computeMAC H (deriveKeys H S).2 (generateIV rand)
      (xorCrypt m (deriveKeys H S).1 (generateIV rand))).take 16).length = 16 := by
    rw [List.length_take, hmaclen]
    decide
  have htake : (encrypt H rand S m).ciphertext.take m.length =
      xorCrypt m (deriveKeys H S).1 (generateIV rand) := by
    rw [encrypt_ciphertext_eq, ← henclen]
    exact List.take_left _ _
  have hdrop : (encrypt H rand S m).ciphertext.drop m.length =
      (computeMAC H (deriveKeys H S).2 (generateIV rand)
        (xorCrypt m (deriveKeys H S).1 (generateIV rand))).take 16 := by
    rw [encrypt_ciphertext_eq, ← henclen]
    exact List.drop_left _ _
  refine ⟨?_, ?_, ?_⟩
  · rw [encrypt_ciphertext_eq, List.length_append, henclen, htaglen]
  · intro i hi
    have hi2 : i < (xorCrypt m (deriveKeys H S).1 (generateIV rand)).length := by
      rw [henclen]; exact hi
    rw [encrypt_ciphertext_eq, List.getD_append _ _ _ _ hi2,
      xorCrypt_getD_of_bytes m _ _ hm i hi,
      keyStreamAt_eq_of_bytes _ _ hk1bytes hivbytes (by omega) (by rw [hivlen]; omega) i,
      hivlen, encrypt_iv_eq, Nat.xor_assoc]
  · rw [hdrop, htake, encrypt_iv_eq]

/-- C5: the derived keys are H(S_bytes || "encryption") and
H(S_bytes || "authentication") with S_bytes the unpadded big-endian bytes
of S, and with a 64-byte hash (SHA-512) each key is 64 bytes. -/
theorem deriveKeys_spec (H : List Nat → List Nat) (S : Nat) (hS : 0 < S)
    (hH : ∀ x, (H x).length = 64) :
    deriveKeys H S =
      (H (minBE S ++ asciiBytes ("encryption")), H (minBE S ++ asciiBytes ("authentication")))
    ∧ (deriveKeys H S).1.length = 64 ∧ (deriveKeys H S).2.length = 64 := by
  refine ⟨?_, by simp [deriveKeys, hashChunks, defaultParameters, hH],
    by simp [deriveKeys, hashChunks, defaultParameters, hH]⟩
  rw [deriveKeys]
  simp [hashChunks, defaultParameters, bigIntToArrayBuffer_eq_minBE S hS]

/-- Witness for C5 at concrete inputs. -/
theorem deriveKeys_spec_witness :
    deriveKeys sha512Stub 5 =
      (sha512Stub (minBE 5 ++ asciiBytes ("encryption")),
       sha512Stub (minBE 5 ++ asciiBytes ("authentication"))) :=
  (deriveKeys_spec sha512Stub 5 (by decide) (fun _ => by simp [sha512Stub])).1

/-- C6 counterexample: with session-configured hash `hashConst1` and ambient
default hash `hashConst2`, the encryption layer derives its key with the
default hash, not the configured one. -/
theorem sessionDeriveKeys_ignores_configured_hash :
    (sessionDeriveKeys hashConst2 { params := { H := hashConst1 }, S := 1 }).1 =
      hashConst2 (bigIntToArrayBuffer 1 ++ asciiBytes ("encryption"))
    ∧ (sessionDeriveKeys hashConst2 { params := { H := hashConst1 }, S := 1 }).1 ≠
      hashConst1 (bigIntToArrayBuffer 1 ++ asciiBytes ("encryption")) := by
  constructor
  · simp [sessionDeriveKeys, deriveKeys, hashChunks, defaultParameters]
  · simp [sessionDeriveKeys, deriveKeys, hashChunks, defaultParameters,
      hashConst1, hashConst2]

/-- C6 amended: the encryption layer always hashes with a freshly
default-constructed SRPParameters, independent of the configured session
parameters. -/
theorem encryption_uses_default_hash (dH : List Nat → List Nat)
    (p : SRPParameters) (S : Nat) (macKey iv ct : List Nat) :
    sessionDeriveKeys dH { params := p, S := S } = deriveKeys dH S
    ∧ deriveKeys dH S =
        (dH (bigIntToArrayBuffer S ++ asciiBytes ("encryption")),
         dH (bigIntToArrayBuffer S ++ asciiBytes ("authentication")))
    ∧ computeMAC dH macKey iv ct = dH (macKey ++ iv ++ ct) := by
  refine ⟨rfl, ?_, ?_⟩
  · simp [deriveKeys, hashChunks, defaultParameters]
  · simp [computeMAC, hashChunks, defaultParameters]

/-- C2: generateIV does return 16 bytes per call, but it draws them from
Math.random, not from the CSPRNG primitive. -/
theorem generateIV_source_is_math_random :
    (∀ rand, (generateIV rand).length = 16)
    ∧ generateIVSource = RandomSource.mathRandom
    ∧ generateIVSource ≠ RandomSource.csprng :=
  ⟨generateIV_length, rfl, by decide⟩

/-- C7: modPow rejects exactly negative bases, negative exponents and
non-positive moduli; but at base 5, exponent 0, modulus 1 it returns 1,
while base^exp mod mod is 0. -/
theorem modPow_mod_one_exp_zero_bug :
    (∀ x pow mod : Int,
      (∃ e, modPow x pow mod = Except.error e) ↔ (x < 0 ∨ pow < 0 ∨ mod < 1))
    ∧ modPow 5 0 1 = Except.ok 1 ∧ ((5 : Int) ^ (0 : Nat)) % 1 = 0 := by
  refine ⟨?_, ?_, by norm_num⟩
  · intro x pow mod
    unfold modPow
    split_ifs with h1 h2 h3
    · simp [h1]
    · simp [h2]
    · simp [h3]
    · simp [h1, h2, h3]
  · simp [modPow, modPowLoop]

theorem jsTrim_empty : jsTrim ("") = "" := by decide

/-- C8 counterexample: with non-null identity ("alice"), non-null salt 1 and
the non-null empty password, createVerifier raises an error even though no
argument is null and the identity is non-empty after trimming. -/
theorem createVerifier_rejects_nonnull_empty_password :
    (∃ e, createVerifier sampleRoutines (some ("alice")) (some 1) (some ("")) =
      Except.error e)
    ∧ (some ("alice") : Option String) ≠ none
    ∧ jsTrim ("alice") ≠ ""
    ∧ (some 1 : Option Nat) ≠ none
    ∧ (some ("") : Option String) ≠ none := by
  refine ⟨⟨"Password (P) must not be null", by rfl⟩, by simp, by decide, by simp, by simp⟩

/-- C8 amended: createVerifier errors exactly when I is null or trims to
empty, s is null or zero, or P is null or empty; otherwise it returns
computeVerifier(computeX(I, s, P)); createVerifierAndSalt draws a salt and
delegates. -/
theorem createVerifier_spec (r : SRPRoutines) (I : Option String) (s : Option Nat)
    (P : Option String) :
    ((∃ e, createVerifier r I s P = Except.error e) ↔
      (I = none ∨ jsTrim (I.getD ("")) = "" ∨ s = none ∨ s = some 0 ∨ P = none ∨
        P = some ("")))
    ∧ (¬(I = none ∨ jsTrim (I.getD ("")) = "" ∨ s = none ∨ s = some 0 ∨ P = none ∨
        P = some ("")) →
        createVerifier r I s P =
          Except.ok (r.computeVerifier (r.computeX (I.getD ("")) (s.getD 0) (P.getD ("")))))
    ∧ createVerifierAndSalt r I P =
        (createVerifier r I (some r.generateRandomSalt) P).map
          fun v => (r.generateRandomSalt, v) := by
  refine ⟨?_, ?_, rfl⟩
  · rcases I with _ | istr
    · simp [createVerifier, jsFalsyStr]
    · rcases s with _ | sv
      · by_cases hi : jsTrim istr = ""
        · simp [createVerifier, jsFalsyStr, jsFalsyBigInt, hi]
        · have histr : istr ≠ "" := fun h => hi (h ▸ jsTrim_empty)
          simp [createVerifier, jsFalsyStr, jsFalsyBigInt, hi, histr]
      · rcases P with _ | pstr
        · by_cases hi : jsTrim istr = ""
          · simp [createVerifier, jsFalsyStr, jsFalsyBigInt, hi]
          · have histr : istr ≠ "" := fun h => hi (h ▸ jsTrim_empty)
            by_cases hs : sv = 0 <;>
              simp [createVerifier, jsFalsyStr, jsFalsyBigInt, hi, hs, histr]
        · by_cases hi : jsTrim istr = ""
          · simp [createVerifier, jsFalsyStr, jsFalsyBigInt, hi]
          · have histr : istr ≠ "" := fun h => hi (h ▸ jsTrim_empty)
            by_cases hs : sv = 0 <;> by_cases hp : pstr = "" <;>
              simp [createVerifier, jsFalsyStr, jsFalsyBigInt, hi, hs, hp, histr]
  · intro h
    rcases I with _ | istr
    · exact absurd (Or.inl rfl) h
    · rcases s with _ | sv
      · exact absurd (Or.inr (Or.inr (Or.inl rfl))) h
      · rcases P with _ | pstr
        · exact absurd (Or.inr (Or.inr (Or.inr (Or.inr (Or.inl rfl))))) h
        · push_neg at h
          obtain ⟨-, hi, -, hs, -, hp⟩ := h
          simp only [Option.getD_some] at hi
          have hs0 : sv ≠ 0 := fun hh => hs (by rw [hh])
          have hp0 : pstr ≠ "" := fun hh => hp (by rw [hh])
          have histr : istr ≠ "" := fun hh => hi (by simpa [hh] using jsTrim_empty)
          simp [createVerifier, jsFalsyStr, jsFalsyBigInt, hi, hs0, hp0, histr]

/-- Witness for C8 at concrete inputs. -/
theorem createVerifier_spec_witness :
    createVerifier sampleRoutines (some ("bob")) (some 2) (some ("pw")) =
      Except.ok (sampleRoutines.computeVerifier
        (sampleRoutines.computeX ("bob") 2 ("pw"))) :=
  (createVerifier_spec sampleRoutines (some ("bob")) (some 2) (some ("pw"))).2.1
    (by decide)

/-- C9: bigIntToArrayBuffer produces the minimum-length big-endian byte
encoding of n: its output decodes (big-endian) back to n, and no byte string
the decoder accepts as n is shorter — the decoder rejects the empty buffer
(it would parse the bare 0x marker, which throws), so the single zero byte
is minimal for n = 0.  arrayBufferToBigInt is thus its left inverse. -/
theorem bigIntToArrayBuffer_spec (n : Nat) :
    arrayBufferToBigInt (bigIntToArrayBuffer n) = Except.ok n
    ∧ ∀ l : List Nat, arrayBufferToBigInt l = Except.ok n →
        (bigIntToArrayBuffer n).length ≤ l.length :=
  ⟨arrayBufferToBigInt_bigIntToArrayBuffer n,
    fun l h => bigIntToArrayBuffer_minimal n l h⟩

/-- Witness for C9 at a concrete input: 777 round-trips, and its encoding is
no longer than the two-byte string [3, 9], which also decodes to 777. -/
theorem bigIntToArrayBuffer_spec_witness :
    arrayBufferToBigInt (bigIntToArrayBuffer 777) = Except.ok 777
    ∧ (bigIntToArrayBuffer 777).length ≤ 2 :=
  ⟨(bigIntToArrayBuffer_spec 777).1,
    (bigIntToArrayBuffer_spec 777).2 [3, 9] (by rfl)⟩

/-- C10: with budget exp + 1 the loop terminates (the exponent strictly
decreases every iteration), and its value is that of the total function the
embedding defines by well-founded recursion on the exponent. -/
theorem modPowLoop_terminates (base exp mod : Nat) (_h : 1 ≤ mod) :
    (modPowGo (exp + 1) base exp mod 1).isSome = true
    ∧ modPowGo (exp + 1) base exp mod 1 = some (modPowLoop base exp mod 1) := by
  refine ⟨?_, modPowGo_succ_eq exp base mod 1⟩
  rw [modPowGo_succ_eq exp base mod 1]
  rfl

/-- Witness for C10 at concrete inputs. -/
theorem modPowLoop_terminates_witness :
    1 ≤ 7 ∧ modPowGo (5 + 1) 3 5 7 1 = some (modPowLoop 3 5 7 1) :=
  ⟨by decide, (modPowLoop_terminates 3 5 7 (by decide)).2⟩

/-- Witness for C3 at concrete inputs. -/
theorem decrypt_error_characterization_witness :
    decrypt sha512Stub 7 [] (List.replicate 8 0) =
      Except.error DecryptError.shortCiphertext :=
  (decrypt_error_characterization sha512Stub (fun _ => by simp [sha512Stub]) 7 []
    (List.replicate 8 0)).1.mpr (by simp)

/-- Witness for C4 at concrete inputs. -/
theorem encrypt_shape_witness :
    (encrypt sha512Stub sampleRand 5 [1, 2, 3]).ciphertext.length = 3 + 16
    ∧ (encrypt sha512Stub sampleRand 5 [1, 2, 3]).ciphertext.getD 0 0 =
        [1, 2, 3].getD 0 0 ^^^
          (deriveKeys sha512Stub 5).1.getD (0 % (deriveKeys sha512Stub 5).1.length) 0 ^^^
          (encrypt sha512Stub sampleRand 5 [1, 2, 3]).iv.getD (0 % 16) 0 := by
  have hH : ∀ x, (sha512Stub x).length = 64 ∧ isBytes (sha512Stub x) := by
    intro x
    constructor
    · simp [sha512Stub]
    · intro b hb
      simp [sha512Stub] at hb
      omega
  exact ⟨(encrypt_shape sha512Stub sampleRand 5 [1, 2, 3] hH (by decide)).1,
    (encrypt_shape sha512Stub sampleRand 5 [1, 2, 3] hH (by decide)).2.1 0 (by decide)⟩
